import Mathlib

/-!
Verification of the language-management module of a static website
(`js/language.js`).  The module detects a visitor's preferred language,
loads a JSON translation table, and rewrites DOM text.  Below, each
JavaScript function is embedded as a Lean definition over explicit state,
and the specification's claims are settled as theorems.
-/

set_option autoImplicit false

namespace Lang

/-- A JSON value as produced by `response.json()`: leaves are strings,
numbers, booleans or null; branches are objects (association lists in
insertion order).  Translation tables are values of this type. -/
inductive JValue where
  | str (s : String)
  | num (n : Int)
  | bool (b : Bool)
  | null
  | obj (fields : List (String × JValue))

/-- JavaScript `s.split(sep)` for a one-character separator `sep`:
accumulates the current segment and emits it at each separator.
`"".split(sep)` yields `[""]`. -/
def splitCharAux (sep : Char) : List Char → List Char → List String
  | acc, [] => [String.mk acc.reverse]
  | acc, c :: cs =>
    if c = sep then String.mk acc.reverse :: splitCharAux sep [] cs
    else splitCharAux sep (c :: acc) cs

/-- JavaScript `s.split(sep)` on a character list. -/
def splitChar (sep : Char) (s : List Char) : List String :=
  splitCharAux sep [] s

/-- The loop body of `text`: walks the translation tree along the key
segments.  At each step the source checks
`value && typeof value === 'object' && k in value`; only a (truthy)
object containing the key continues, anything else returns
`fallback || key`.  After the loop the terminal value must be a string,
else again `fallback || key`. -/
def textWalk : JValue → List String → String → String → String
  | v, [], _key, fb =>
    match v with
    | .str s => s
    | _ => if fb = "" then _key else fb
  | .obj fields, k :: ks, key, fb =>
    match fields.lookup k with
    | some v => textWalk v ks key fb
    | none => if fb = "" then key else fb
  | _, _ :: _, key, fb => if fb = "" then key else fb

/-- `text(key, fallback = '')` from `language.js` (lines 126-143).  The
`key` argument is `none` for a non-string (or absent) key; the source's
`!key || typeof key !== 'string'` guard also rejects the empty string. -/
def text (translations : JValue) (key : Option String) (fallback : String := "") : String :=
  match key with
  | none => fallback
  | some k =>
    if k = "" then fallback
    else textWalk translations (splitChar '.' k.data) k fallback

/-- Plain path resolution in a JSON tree: follow the segments through
object fields; `some v` when the whole path exists. -/
def resolvePath : JValue → List String → Option JValue
  | v, [] => some v
  | .obj fields, k :: ks =>
    match fields.lookup k with
    | some v => resolvePath v ks
    | none => none
  | _, _ :: _ => none

/-- A sample translation table used by concrete witnesses. -/
def sampleTable : JValue :=
  JValue.obj [("a", JValue.obj [("b", JValue.str "B"), ("n", JValue.num 3)])]

/-! ### Language detection (`detectLanguage`, lines 8-43) -/

/-- The supported language codes checked at every detection step,
`['en', 'es']` in the source. -/
def supportedLanguages : List String := ["en", "es"]

/-- The ambient browser environment read by `detectLanguage`:
`window.location.hash`, `urlParams.get('lang')`,
`localStorage.getItem('preferred-language')`, `window.location.pathname`
and `navigator.language`.  The two `get` results are `none` when the
query parameter or stored preference is absent. -/
structure DetectEnv where
  hash : String
  queryLang : Option String
  savedLang : Option String
  pathname : String
  browserLanguage : String

/-- The regex match `hash.match(/[#&]lang=([a-z]{2})/)`: scan for the
first `#` or `&` followed by the literal `lang=` and two lowercase
letters; the capture is those two letters.  On a failed attempt the scan
resumes one character later, as a regex engine does. -/
def scanHash : List Char → Option String
  | [] => none
  | c :: cs =>
    if c = '#' ∨ c = '&' then
      match cs with
      | 'l' :: 'a' :: 'n' :: 'g' :: '=' :: a :: b :: _ =>
        if ('a' ≤ a ∧ a ≤ 'z') ∧ ('a' ≤ b ∧ b ≤ 'z') then some (String.mk [a, b])
        else scanHash cs
      | _ => scanHash cs
    else scanHash cs

/-- Detection method 1: the hash marker, kept only when the captured
code is supported (`hashMatch && ['en','es'].includes(hashMatch[1])`). -/
def fragCode (e : DetectEnv) : Option String :=
  match scanHash e.hash.data with
  | some m => if m ∈ supportedLanguages then some m else none
  | none => none

/-- Detection method 2: the `lang` query parameter
(`langParam && ['en','es'].includes(langParam)`; the empty string is
falsy). -/
def queryCode (e : DetectEnv) : Option String :=
  match e.queryLang with
  | some q => if q ≠ "" ∧ q ∈ supportedLanguages then some q else none
  | none => none

/-- Detection method 3: the persisted preference
(`savedLang && ['en','es'].includes(savedLang)`). -/
def savedCode (e : DetectEnv) : Option String :=
  match e.savedLang with
  | some q => if q ≠ "" ∧ q ∈ supportedLanguages then some q else none
  | none => none

/-- The path segments `path.split('/').filter(segment => segment)`. -/
def pathSegments (e : DetectEnv) : List String :=
  (splitChar '/' e.pathname.data).filter (fun seg => seg ≠ "")

/-- Detection method 4: the first nonempty path segment, when
supported. -/
def pathCode (e : DetectEnv) : Option String :=
  match pathSegments e with
  | s0 :: _ => if s0 ∈ supportedLanguages then some s0 else none
  | [] => none

/-- Detection method 5: `navigator.language.split('-')[0]`. -/
def browserPrimary (e : DetectEnv) : String :=
  (splitChar '-' e.browserLanguage.data).headD ""

/-- `detectLanguage` (lines 8-43): the five methods in order; the final
fallback returns the browser primary subtag when supported, else
`'en'`. -/
def detectLanguage (e : DetectEnv) : String :=
  match fragCode e with
  | some c => c
  | none =>
  match queryCode e with
  | some c => c
  | none =>
  match savedCode e with
  | some c => c
  | none =>
  match pathCode e with
  | some c => c
  | none =>
  if browserPrimary e ∈ supportedLanguages then browserPrimary e else "en"

/-- An environment where the fragment marker (`es`) and the query
parameter (`en`) disagree; every lower-priority source is set to `en` as
well. -/
def hashWinsEnv : DetectEnv :=
  ⟨"#lang=es", some "en", some "en", "/en/", "en-US"⟩

/-- An environment with nothing set: empty hash, no query parameter, no
stored preference, empty path, empty browser locale. -/
def emptyEnv : DetectEnv := ⟨"", none, none, "", ""⟩

/-- An environment where only the query parameter is set, to `c`. -/
def queryOnlyEnv (c : String) : DetectEnv := ⟨"", some c, none, "", ""⟩

/-! ### Variable interpolation (`textWithVars`, lines 152-162) -/

/-- The pattern built for one variable: the character sequence of
`'\x7b\x7b' + varName + '\x7d\x7d'`, from which the source compiles
`new RegExp(..., 'g')`.  For an identifier-like name (`identName`) the
compiled regex matches exactly this literal character sequence, and with
a `$`-free value the `replace` call splices the value verbatim; the
theorems about `textWithVars` carry those two hypotheses wherever they
quantify over names and values, and assert nothing outside that class. -/
def placeholder (varName : String) : List Char :=
  '\x7b' :: '\x7b' :: (varName.data ++ ['\x7d', '\x7d'])

/-- A character allowed inside a variable name for the literal-match
model: an ASCII letter, a digit or an underscore — none of these is a
regex metacharacter. -/
def isIdentChar (c : Char) : Bool :=
  c.isAlpha || c.isDigit || c = '_'

/-- An identifier-like variable name: nonempty, made of letters, digits
and underscores, not starting with a digit (so the brace following
`\x7b` cannot be read as a `\x7bn\x7d` quantifier).  For such a name
the regex `\x7b\x7bname\x7d\x7d` matches exactly the literal
sequence `placeholder name`. -/
def identName (name : String) : Bool :=
  match name.data with
  | [] => false
  | c :: cs => (c.isAlpha || c = '_') && cs.all isIdentChar

/-- Global string replacement as performed by
`text.replace(regex, value)` with a literal pattern: scan left to right,
replace each non-overlapping occurrence, and continue after it without
rescanning the inserted replacement.  The fuel argument bounds the scan;
one unit is spent per step and each step consumes at least one input
character, so `fuel = s.length` always suffices. -/
def replaceAllFuel (pat rep : List Char) : Nat → List Char → List Char
  | 0, s => s
  | _ + 1, [] => []
  | fuel + 1, c :: cs =>
    if pat ≠ [] ∧ pat.isPrefixOf (c :: cs) then
      rep ++ replaceAllFuel pat rep fuel ((c :: cs).drop pat.length)
    else
      c :: replaceAllFuel pat rep fuel cs

/-- Global replacement of every occurrence of `pat` by `rep` in `s`. -/
def replaceAll (pat rep s : List Char) : List Char :=
  replaceAllFuel pat rep s.length s

/-- JavaScript `s.includes(pat)`: `pat` occurs as a contiguous substring
of `s`. -/
def containsSub (pat : List Char) : List Char → Bool
  | [] => pat.isEmpty
  | c :: cs => pat.isPrefixOf (c :: cs) || containsSub pat cs

/-- Specification-side decomposition: split `s` on the leftmost
non-overlapping occurrences of `pat` (the semantics of JavaScript
`s.split(pat)` for a literal separator), with the same fuel discipline
as `replaceAllFuel`.  The segments are the pattern-free stretches
between consecutive occurrences. -/
def splitOnSubFuel (pat : List Char) : Nat → List Char → List (List Char)
  | 0, s => [s]
  | _ + 1, [] => [[]]
  | fuel + 1, c :: cs =>
    if pat ≠ [] ∧ pat.isPrefixOf (c :: cs) then
      [] :: splitOnSubFuel pat fuel ((c :: cs).drop pat.length)
    else
      match splitOnSubFuel pat fuel cs with
      | seg :: segs => (c :: seg) :: segs
      | [] => [[c]]

/-- Split `s` on every occurrence of `pat`. -/
def splitOnSub (pat s : List Char) : List (List Char) :=
  splitOnSubFuel pat s.length s

/-- JavaScript `segments.join(sep)`: concatenate the segments with `sep`
between consecutive ones. -/
def joinWith (sep : List Char) : List (List Char) → List Char
  | [] => []
  | [seg] => seg
  | seg :: segs => seg ++ sep ++ joinWith sep segs

/-- `textWithVars(key, variables = \x7b\x7d, fallback = '')` (lines
152-162): resolve the key via `text`, then for each variable name in
enumeration order replace every `\x7b\x7bname\x7d\x7d` occurrence with
its value.  `variables` is the object's entry list in enumeration
order. -/
def textWithVars (translations : JValue) (key : Option String)
    (vars : List (String × String)) (fallback : String := "") : String :=
  String.mk
    (vars.foldl
      (fun t p => replaceAll (placeholder p.1) p.2.data t)
      (text translations key fallback).data)

/-- Table for the spec's repeated-placeholder example:
`\x7bmsg: "Hi \x7b\x7bn\x7d\x7d, \x7b\x7bn\x7d\x7d!"\x7d`. -/
def msgTable : JValue :=
  JValue.obj [("msg", JValue.str "Hi \x7b\x7bn\x7d\x7d, \x7b\x7bn\x7d\x7d!")]

/-- Table with one matched and one unmatched placeholder. -/
def msgTable2 : JValue :=
  JValue.obj [("msg", JValue.str "\x7b\x7ba\x7d\x7d and \x7b\x7bb\x7d\x7d")]

/-- Table whose entry references variable `a`, used to exhibit the
sequential (per-variable, in enumeration order) substitution. -/
def chainTable : JValue :=
  JValue.obj [("greet", JValue.str "Hi \x7b\x7ba\x7d\x7d")]

/-! ### Inline markers (`translateInlineMarkers`, lines 225-252) -/

/-- `originalContent.includes('\x7b\x7b') && originalContent.includes('\x7d\x7d')`
— the order of the two substrings is not checked. -/
def hasMarkers (s : List Char) : Bool :=
  containsSub "\x7b\x7b".data s && containsSub "\x7d\x7d".data s

/-- The global replacement
`originalContent.replace(/\\\x7b\\\x7b([^\x7d]+)\\\x7d\\\x7d/g, (match, key) => this.text(key, match))`:
at each position, a match needs `\x7b\x7b`, then a maximal nonempty run
of non-`\x7d` characters (the captured key), then `\x7d\x7d`; the match
is replaced by `text(key, match)` (the whole marker stays verbatim when
the key is missing) and scanning resumes after it.  On a failed attempt
the scan resumes one character later.  One unit of fuel is spent per
step and every step consumes at least one character, so
`fuel = s.length` suffices. -/
def replaceMarkersFuel (tr : JValue) : Nat → List Char → List Char
  | 0, s => s
  | _ + 1, [] => []
  | fuel + 1, c :: cs =>
    if c = '\x7b' then
      match cs with
      | c2 :: rest =>
        if c2 = '\x7b' then
          let body := rest.takeWhile (fun x => x ≠ '\x7d')
          match rest.dropWhile (fun x => x ≠ '\x7d') with
          | r1 :: r2 :: rest2 =>
            if body ≠ [] ∧ r1 = '\x7d' ∧ r2 = '\x7d' then
              (text tr (some (String.mk body))
                (String.mk ('\x7b' :: '\x7b' :: body ++ ['\x7d', '\x7d']))).data
                ++ replaceMarkersFuel tr fuel rest2
            else c :: replaceMarkersFuel tr fuel cs
          | _ => c :: replaceMarkersFuel tr fuel cs
        else c :: replaceMarkersFuel tr fuel cs
      | [] => [c]
    else c :: replaceMarkersFuel tr fuel cs

/-- Marker replacement on a string. -/
def replaceMarkersStr (tr : JValue) (s : String) : String :=
  String.mk (replaceMarkersFuel tr s.data.length s.data)

/-- The per-element state touched by the inline scan: the element's
`innerHTML` and its `data-original-content` attribute (`none` when the
attribute is absent). -/
structure DomElement where
  innerHTML : String
  originalContentAttr : Option String

/-- The `translateInlineMarkers` body for one flagged element: read the
cached original markup (`getAttribute` is falsy for both an absent
attribute and the empty string, in which case the current `innerHTML` is
cached); when the original contains markers, rewrite `innerHTML` from
the original. -/
def translateInline (tr : JValue) (el : DomElement) : DomElement :=
  let original :=
    match el.originalContentAttr with
    | some s => if s = "" then el.innerHTML else s
    | none => el.innerHTML
  let el1 :=
    match el.originalContentAttr with
    | some s =>
      if s = "" then { el with originalContentAttr := some el.innerHTML } else el
    | none => { el with originalContentAttr := some el.innerHTML }
  if hasMarkers original.data then
    { el1 with innerHTML := replaceMarkersStr tr original }
  else el1

/-! ### Loading and switching (`loadTranslations` lines 51-64,
`switchLanguage` lines 92-110) -/

/-- The network as seen by `loadTranslations`: fetching
`languages/<code>.json` followed by `response.json()` either yields a
parsed table or throws (fetch rejection or parse error), modelled as
`none`. -/
structure LoadEnv where
  fetchTable : String → Option JValue

/-- The page state touched by loading and switching: the manager's
`currentLanguage` and `translations` fields, the document language
attribute (`document.documentElement.lang`), the persisted preference
(`localStorage['preferred-language']`), the URL's `lang` query
parameter, a counter of `updateContent` DOM rescans, and the list of
fetches issued. -/
structure PageState where
  currentLanguage : String
  translations : JValue
  docLang : String
  storedPref : Option String
  urlLang : Option String
  domScans : Nat
  fetchLog : List String

/-- The outcome of an `async` method: the state after it settles, and
whether it rejected (an exception escaped). -/
structure LoadResult where
  state : PageState
  throws : Bool

/-- `loadTranslations` (lines 51-64): fetch the table for the current
language; on failure, when the current language is not `'en'`, set it to
`'en'` and fetch the default table.  The second fetch is not inside a
`try`, so its failure escapes the method; the catch block has already
set `currentLanguage` to `'en'` by then, and `translations` is never
reassigned. -/
def loadTranslations (env : LoadEnv) (s : PageState) : LoadResult :=
  match env.fetchTable s.currentLanguage with
  | some t =>
    ⟨{ s with translations := t,
               fetchLog := s.fetchLog ++ [s.currentLanguage] }, false⟩
  | none =>
    let s1 := { s with fetchLog := s.fetchLog ++ [s.currentLanguage] }
    if s.currentLanguage ≠ "en" then
      let s2 := { s1 with currentLanguage := "en",
                          fetchLog := s1.fetchLog ++ ["en"] }
      match env.fetchTable "en" with
      | some t => ⟨{ s2 with translations := t }, false⟩
      | none => ⟨s2, true⟩
    else
      ⟨s1, false⟩

/-- `switchLanguage` (lines 92-110): return unchanged when the code
equals the current language; otherwise set the current language, await
`loadTranslations` (a rejection aborts the rest), update the document
language attribute from the possibly-fallen-back current language,
rescan the DOM, persist the requested code and write it into the URL's
`lang` parameter. -/
def switchLanguage (env : LoadEnv) (s : PageState) (langCode : String) : LoadResult :=
  if langCode = s.currentLanguage then ⟨s, false⟩
  else
    let r := loadTranslations env { s with currentLanguage := langCode }
    if r.throws then r
    else
      ⟨{ r.state with
          docLang := r.state.currentLanguage,
          domScans := r.state.domScans + 1,
          storedPref := some langCode,
          urlLang := some langCode }, false⟩

/-- An environment in which every fetch fails. -/
def failEnv : LoadEnv := ⟨fun _ => none⟩

/-- An environment in which only `languages/en.json` loads. -/
def enOnlyEnv : LoadEnv :=
  ⟨fun c => if c = "en" then some (JValue.obj [("k", JValue.str "v")]) else none⟩

/-- A freshly started page whose detected language is `es`: empty
translation table, nothing persisted, no fetches yet. -/
def esStart : PageState := ⟨"es", JValue.obj [], "es", none, none, 0, []⟩

/-- A freshly started page whose detected language is `en`. -/
def enStart : PageState := ⟨"en", JValue.obj [], "en", none, none, 0, []⟩

/-! ### Theorems -/

theorem textWalk_eq_resolvePath (key fb : String) :
    ∀ (keys : List String) (tr : JValue),
      textWalk tr keys key fb =
        match resolvePath tr keys with
        | some (JValue.str s) => s
        | _ => if fb = "" then key else fb := by
  intro keys
  induction keys with
  | nil =>
    intro tr
    cases tr <;> simp [textWalk, resolvePath]
  | cons k ks ih =>
    intro tr
    cases tr with
    | obj fields =>
      simp only [textWalk, resolvePath]
      cases fields.lookup k with
      | some v => simpa using ih v
      | none => simp
    | str s => simp [textWalk, resolvePath]
    | num n => simp [textWalk, resolvePath]
    | bool b => simp [textWalk, resolvePath]
    | null => simp [textWalk, resolvePath]

/-- C2: `text` returns the leaf string when the dotted path resolves to a
string in the table, and otherwise returns the fallback, or the raw key
when the fallback is empty (the source's `fallback || key`). -/
theorem text_lookup_correct (tr : JValue) (key fb : String) (hk : key ≠ "") :
    (∀ s, resolvePath tr (splitChar '.' key.data) = some (JValue.str s) →
      text tr (some key) fb = s) ∧
    ((∀ s, resolvePath tr (splitChar '.' key.data) ≠ some (JValue.str s)) →
      text tr (some key) fb = if fb = "" then key else fb) := by
  constructor
  · intro s hs
    simp only [text, if_neg hk, textWalk_eq_resolvePath, hs]
  · intro hmiss
    rw [show text tr (some key) fb
        = textWalk tr (splitChar '.' key.data) key fb by
      simp [text, if_neg hk], textWalk_eq_resolvePath]
    split
    · next s hs => exact absurd hs (hmiss s)
    · rfl

theorem text_lookup_correct_witness :
    text sampleTable (some "a.b") "" = "B" :=
  (text_lookup_correct sampleTable "a.b" "" (by decide)).1 "B" rfl

/-- C3: detection honours the priority order — a supported fragment
marker wins over the query parameter, which wins over the persisted
preference, which wins over the first path segment, which wins over the
browser locale's primary subtag. -/
theorem detectLanguage_priority (e : DetectEnv) (c : String) :
    (fragCode e = some c → detectLanguage e = c) ∧
    (fragCode e = none → queryCode e = some c → detectLanguage e = c) ∧
    (fragCode e = none → queryCode e = none → savedCode e = some c →
      detectLanguage e = c) ∧
    (fragCode e = none → queryCode e = none → savedCode e = none →
      pathCode e = some c → detectLanguage e = c) ∧
    (fragCode e = none → queryCode e = none → savedCode e = none →
      pathCode e = none →
      detectLanguage e =
        if browserPrimary e ∈ supportedLanguages then browserPrimary e else "en") := by
  refine ⟨?_, ?_, ?_, ?_, ?_⟩ <;> intro h1
  · simp [detectLanguage, h1]
  all_goals intro h2
  · simp [detectLanguage, h1, h2]
  all_goals intro h3
  · simp [detectLanguage, h1, h2, h3]
  all_goals intro h4
  · simp [detectLanguage, h1, h2, h3, h4]
  · simp [detectLanguage, h1, h2, h3, h4]

theorem detectLanguage_priority_witness : detectLanguage hashWinsEnv = "es" :=
  (detectLanguage_priority hashWinsEnv "es").1 (by decide)

theorem fragCode_mem {e : DetectEnv} {c : String} (h : fragCode e = some c) :
    c ∈ supportedLanguages := by
  unfold fragCode at h
  cases hsc : scanHash e.hash.data with
  | none => simp [hsc] at h
  | some m =>
    by_cases hm : m ∈ supportedLanguages
    · simp only [hsc, if_pos hm, Option.some.injEq] at h
      exact h ▸ hm
    · simp [hsc, if_neg hm] at h

theorem queryCode_mem {e : DetectEnv} {c : String} (h : queryCode e = some c) :
    c ∈ supportedLanguages := by
  unfold queryCode at h
  cases hql : e.queryLang with
  | none => simp [hql] at h
  | some q =>
    by_cases hm : q ≠ "" ∧ q ∈ supportedLanguages
    · simp only [hql, if_pos hm, Option.some.injEq] at h
      exact h ▸ hm.2
    · simp [hql, if_neg hm] at h

theorem savedCode_mem {e : DetectEnv} {c : String} (h : savedCode e = some c) :
    c ∈ supportedLanguages := by
  unfold savedCode at h
  cases hql : e.savedLang with
  | none => simp [hql] at h
  | some q =>
    by_cases hm : q ≠ "" ∧ q ∈ supportedLanguages
    · simp only [hql, if_pos hm, Option.some.injEq] at h
      exact h ▸ hm.2
    · simp [hql, if_neg hm] at h

theorem pathCode_mem {e : DetectEnv} {c : String} (h : pathCode e = some c) :
    c ∈ supportedLanguages := by
  unfold pathCode at h
  cases hps : pathSegments e with
  | nil => simp [hps] at h
  | cons s0 rest =>
    by_cases hm : s0 ∈ supportedLanguages
    · simp only [hps, if_pos hm, Option.some.injEq] at h
      exact h ▸ hm
    · simp [hps, if_neg hm] at h

/-- C8: detection is total and never errors: the result is always a
supported code; when no source yields a supported code the result is the
default `'en'`; with only the query parameter set to a supported `c` the
result is `c`; with nothing set the result is the default. -/
theorem detectLanguage_total_default :
    (∀ e, detectLanguage e ∈ supportedLanguages) ∧
    (∀ e, fragCode e = none → queryCode e = none → savedCode e = none →
      pathCode e = none → browserPrimary e ∉ supportedLanguages →
      detectLanguage e = "en") ∧
    (∀ c, c ∈ supportedLanguages → detectLanguage (queryOnlyEnv c) = c) ∧
    detectLanguage emptyEnv = "en" := by
  refine ⟨?_, ?_, ?_, by decide⟩
  · intro e
    unfold detectLanguage
    cases hf : fragCode e with
    | some c => exact fragCode_mem hf
    | none =>
    cases hq : queryCode e with
    | some c => exact queryCode_mem hq
    | none =>
    cases hs : savedCode e with
    | some c => exact savedCode_mem hs
    | none =>
    cases hp : pathCode e with
    | some c => exact pathCode_mem hp
    | none =>
      by_cases hb : browserPrimary e ∈ supportedLanguages
      · rw [if_pos hb]; exact hb
      · rw [if_neg hb]; decide
  · intro e h1 h2 h3 h4 h5
    unfold detectLanguage
    rw [h1, h2, h3, h4, if_neg h5]
  · intro c hc
    fin_cases hc <;> decide

theorem detectLanguage_total_default_witness :
    detectLanguage (queryOnlyEnv "es") = "es" :=
  detectLanguage_total_default.2.2.1 "es" (by decide)

/-- C9: with an empty-string key or a non-string key, `text` returns the
fallback (the empty string when none is given), never the raw key: the
guard `!key || typeof key !== 'string'` returns before the
`fallback || key` rule can apply. -/
theorem text_empty_or_nonstring_key : ∀ (tr : JValue) (fb : String),
    text tr none fb = fb ∧ text tr (some "") fb = fb := by
  intro tr fb
  constructor
  · rfl
  · simp [text]


theorem replaceAllFuel_of_not_contains (pat rep : List Char) :
    ∀ (fuel : Nat) (s : List Char), containsSub pat s = false →
      replaceAllFuel pat rep fuel s = s := by
  intro fuel
  induction fuel with
  | zero => intro s _; rfl
  | succ n ih =>
    intro s hs
    cases s with
    | nil => rfl
    | cons c cs =>
      simp only [containsSub, Bool.or_eq_false_iff] at hs
      rw [replaceAllFuel, if_neg (by simp [hs.1]), ih cs hs.2]

theorem replaceAll_of_not_contains {pat rep s : List Char}
    (h : containsSub pat s = false) : replaceAll pat rep s = s :=
  replaceAllFuel_of_not_contains pat rep s.length s h

theorem prefix_append_drop :
    ∀ (pat l : List Char), pat.isPrefixOf l = true →
      pat ++ l.drop pat.length = l
  | [], l, _ => by simp
  | p :: ps, [], h => by simp [List.isPrefixOf] at h
  | p :: ps, a :: as, h => by
    simp only [List.isPrefixOf, Bool.and_eq_true, beq_iff_eq] at h
    obtain ⟨rfl, h2⟩ := h
    simp [List.length_cons, List.drop_succ_cons, prefix_append_drop ps as h2]

theorem isPrefixOf_append_right :
    ∀ (pat l r : List Char), pat.isPrefixOf l = true →
      pat.isPrefixOf (l ++ r) = true
  | [], l, r, _ => by
    cases l ++ r with
    | nil => rfl
    | cons a as => rfl
  | p :: ps, [], _, h => by simp [List.isPrefixOf] at h
  | p :: ps, a :: as, r, h => by
    simp only [List.isPrefixOf, Bool.and_eq_true, beq_iff_eq] at h
    simp only [List.cons_append, List.isPrefixOf, Bool.and_eq_true, beq_iff_eq]
    exact ⟨h.1, isPrefixOf_append_right ps as r h.2⟩

theorem joinWith_cons_cons (sep : List Char) (c : Char) (k : List Char) :
    ∀ (ks : List (List Char)),
      joinWith sep ((c :: k) :: ks) = c :: joinWith sep (k :: ks)
  | [] => rfl
  | k2 :: ks => by simp [joinWith, List.cons_append]

theorem splitOnSubFuel_ne_nil (pat : List Char) :
    ∀ (fuel : Nat) (s : List Char), splitOnSubFuel pat fuel s ≠ [] := by
  intro fuel s
  cases fuel with
  | zero => simp [splitOnSubFuel]
  | succ n =>
    cases s with
    | nil => simp [splitOnSubFuel]
    | cons c cs =>
      rw [splitOnSubFuel]
      split
      · simp
      · cases splitOnSubFuel pat n cs <;> simp

theorem joinWith_splitOnSubFuel (pat : List Char) :
    ∀ (fuel : Nat) (s : List Char),
      joinWith pat (splitOnSubFuel pat fuel s) = s := by
  intro fuel
  induction fuel with
  | zero => intro s; rfl
  | succ n ih =>
    intro s
    cases s with
    | nil => rfl
    | cons c cs =>
      by_cases hc : pat ≠ [] ∧ pat.isPrefixOf (c :: cs) = true
      · rw [splitOnSubFuel, if_pos hc]
        obtain ⟨k, ks, hK⟩ : ∃ k ks,
            splitOnSubFuel pat n ((c :: cs).drop pat.length) = k :: ks := by
          cases h : splitOnSubFuel pat n ((c :: cs).drop pat.length) with
          | nil => exact absurd h (splitOnSubFuel_ne_nil pat n _)
          | cons k ks => exact ⟨k, ks, rfl⟩
        rw [hK]
        simp only [joinWith, List.nil_append]
        rw [← hK, ih]
        exact prefix_append_drop pat (c :: cs) hc.2
      · rw [splitOnSubFuel, if_neg hc]
        obtain ⟨k, ks, hK⟩ : ∃ k ks, splitOnSubFuel pat n cs = k :: ks := by
          cases h : splitOnSubFuel pat n cs with
          | nil => exact absurd h (splitOnSubFuel_ne_nil pat n _)
          | cons k ks => exact ⟨k, ks, rfl⟩
        rw [hK, joinWith_cons_cons, ← hK, ih]

theorem replaceAllFuel_eq_joinWith (pat rep : List Char) :
    ∀ (fuel : Nat) (s : List Char),
      replaceAllFuel pat rep fuel s = joinWith rep (splitOnSubFuel pat fuel s) := by
  intro fuel
  induction fuel with
  | zero => intro s; rfl
  | succ n ih =>
    intro s
    cases s with
    | nil => rfl
    | cons c cs =>
      by_cases hc : pat ≠ [] ∧ pat.isPrefixOf (c :: cs) = true
      · rw [replaceAllFuel, splitOnSubFuel, if_pos hc, if_pos hc]
        obtain ⟨k, ks, hK⟩ : ∃ k ks,
            splitOnSubFuel pat n ((c :: cs).drop pat.length) = k :: ks := by
          cases h : splitOnSubFuel pat n ((c :: cs).drop pat.length) with
          | nil => exact absurd h (splitOnSubFuel_ne_nil pat n _)
          | cons k ks => exact ⟨k, ks, rfl⟩
        rw [ih, hK]
        simp only [joinWith, List.nil_append]
      · rw [replaceAllFuel, splitOnSubFuel, if_neg hc, if_neg hc]
        obtain ⟨k, ks, hK⟩ : ∃ k ks, splitOnSubFuel pat n cs = k :: ks := by
          cases h : splitOnSubFuel pat n cs with
          | nil => exact absurd h (splitOnSubFuel_ne_nil pat n _)
          | cons k ks => exact ⟨k, ks, rfl⟩
        rw [hK, joinWith_cons_cons, ih, hK]

theorem splitOnSubFuel_not_contains (pat : List Char) (hp : pat ≠ []) :
    ∀ (fuel : Nat) (s : List Char), s.length ≤ fuel →
      ∀ seg ∈ splitOnSubFuel pat fuel s, containsSub pat seg = false := by
  have hpat0 : containsSub pat [] = false := by
    cases pat with
    | nil => exact absurd rfl hp
    | cons p ps => rfl
  have hlen1 : 1 ≤ pat.length := by
    cases pat with
    | nil => exact absurd rfl hp
    | cons p ps => simp
  intro fuel
  induction fuel with
  | zero =>
    intro s hs seg hseg
    obtain rfl : s = [] := List.length_eq_zero.mp (Nat.le_zero.mp hs)
    obtain rfl : seg = [] := by simpa [splitOnSubFuel] using hseg
    exact hpat0
  | succ n ih =>
    intro s hs seg hseg
    cases s with
    | nil =>
      obtain rfl : seg = [] := by simpa [splitOnSubFuel] using hseg
      exact hpat0
    | cons c cs =>
      by_cases hc : pat ≠ [] ∧ pat.isPrefixOf (c :: cs) = true
      · rw [splitOnSubFuel, if_pos hc] at hseg
        rcases List.mem_cons.mp hseg with rfl | hseg2
        · exact hpat0
        · refine ih ((c :: cs).drop pat.length) ?_ seg hseg2
          simp only [List.length_drop, List.length_cons]
          simp only [List.length_cons] at hs
          omega
      · rw [splitOnSubFuel, if_neg hc] at hseg
        have hnp : ¬ pat.isPrefixOf (c :: cs) = true := fun hpre => hc ⟨hp, hpre⟩
        obtain ⟨k, ks, hK⟩ : ∃ k ks, splitOnSubFuel pat n cs = k :: ks := by
          cases h : splitOnSubFuel pat n cs with
          | nil => exact absurd h (splitOnSubFuel_ne_nil pat n _)
          | cons k ks => exact ⟨k, ks, rfl⟩
        have hcs : cs.length ≤ n := by
          simp only [List.length_cons] at hs
          omega
        rw [hK] at hseg
        rcases List.mem_cons.mp hseg with rfl | hseg2
        · have hk : containsSub pat k = false :=
            ih cs hcs k (by rw [hK]; exact List.mem_cons_self k ks)
          have hrecon := joinWith_splitOnSubFuel pat n cs
          rw [hK] at hrecon
          obtain ⟨r, hr⟩ : ∃ r, cs = k ++ r := by
            cases ks with
            | nil => exact ⟨[], by simpa [joinWith] using hrecon.symm⟩
            | cons k2 ks2 =>
              exact ⟨pat ++ joinWith pat (k2 :: ks2), by
                simpa [joinWith, List.append_assoc] using hrecon.symm⟩
          rw [containsSub, hk, Bool.or_false]
          cases hpc : pat.isPrefixOf (c :: k) with
          | false => rfl
          | true =>
            exact absurd
              (by
                have := isPrefixOf_append_right pat (c :: k) r hpc
                rwa [List.cons_append, ← hr] at this)
              hnp
        · exact ih cs hcs seg (by rw [hK]; exact List.mem_cons_of_mem k hseg2)

/-- C7: `textWithVars` resolves the key via `text` (first conjunct, the
per-variable fold of global replacements in enumeration order) and, for
each identifier-like variable name with a `$`-free value — the class on
which the compiled regex is exactly the literal pattern — the second
conjunct characterizes one global replacement on every text: the text is
the pattern-free segments joined by the `\x7b\x7bname\x7d\x7d`
placeholder, and the result joins the same segments with the value, so
every occurrence (repeated ones included) is replaced and everything
between occurrences is left verbatim.  The third conjunct gives the
unmatched direction — names whose placeholder does not occur leave the
resolved text unchanged — and the closed conjuncts compute the spec's
repeated-placeholder example and a mixed matched/unmatched example. -/
theorem textWithVars_spec (tr : JValue) (key : Option String)
    (vars : List (String × String)) (fb : String) :
    textWithVars tr key vars fb
      = String.mk (vars.foldl
          (fun t p => replaceAll (placeholder p.1) p.2.data t)
          (text tr key fb).data) ∧
    (∀ (name value : String) (t : List Char),
      identName name = true → (∀ ch ∈ value.data, ch ≠ '$') →
      joinWith (placeholder name) (splitOnSub (placeholder name) t) = t ∧
      (∀ seg ∈ splitOnSub (placeholder name) t,
        containsSub (placeholder name) seg = false) ∧
      replaceAll (placeholder name) value.data t
        = joinWith value.data (splitOnSub (placeholder name) t)) ∧
    ((∀ p ∈ vars, identName p.1 = true ∧
        containsSub (placeholder p.1) (text tr key fb).data = false) →
      textWithVars tr key vars fb = text tr key fb) ∧
    textWithVars msgTable (some "msg") [("n", "Sam")] "" = "Hi Sam, Sam!" ∧
    textWithVars msgTable2 (some "msg") [("a", "X")] ""
      = "X and \x7b\x7bb\x7d\x7d" := by
  refine ⟨rfl, ?_, ?_, by decide, by decide⟩
  · intro name value t _hname _hval
    have hne : placeholder name ≠ [] := by simp [placeholder]
    exact ⟨joinWith_splitOnSubFuel (placeholder name) t.length t,
      splitOnSubFuel_not_contains (placeholder name) hne t.length t
        (Nat.le_refl _),
      replaceAllFuel_eq_joinWith (placeholder name) value.data t.length t⟩
  · intro h
    have hfold : ∀ (vs : List (String × String)),
        (∀ p ∈ vs,
          containsSub (placeholder p.1) (text tr key fb).data = false) →
        vs.foldl (fun t p => replaceAll (placeholder p.1) p.2.data t)
          (text tr key fb).data = (text tr key fb).data := by
      intro vs
      induction vs with
      | nil => intro _; rfl
      | cons p ps ih =>
        intro hv
        rw [List.foldl_cons,
          replaceAll_of_not_contains (hv p (List.mem_cons_self p ps)),
          ih (fun q hq => hv q (List.mem_cons_of_mem p hq))]
    unfold textWithVars
    rw [hfold vars (fun p hp => (h p hp).2)]

theorem textWithVars_spec_witness :
    textWithVars (JValue.obj []) (some "missing") [("n", "Sam")] "fb" = "fb" ∧
    replaceAll (placeholder "n") "Sam".data "Hi \x7b\x7bn\x7d\x7d!".data
      = joinWith "Sam".data
          (splitOnSub (placeholder "n") "Hi \x7b\x7bn\x7d\x7d!".data) := by
  constructor
  · exact ((textWithVars_spec (JValue.obj []) (some "missing")
      [("n", "Sam")] "fb").2.2.1 (by decide)).trans rfl
  · exact ((textWithVars_spec (JValue.obj []) (some "missing")
      [("n", "Sam")] "fb").2.1 "n" "Sam" ("Hi \x7b\x7bn\x7d\x7d!".data)
      (by decide) (by decide)).2.2

/-- C10: substitution is sequential in enumeration order, not
simultaneous.  With the table entry `greet = "Hi \x7b\x7ba\x7d\x7d"`,
when variable `a` (whose value is the placeholder for `b`) is enumerated
before `b`, the introduced placeholder is substituted as well; with the
enumeration order reversed it stays verbatim. -/
theorem textWithVars_sequential :
    textWithVars chainTable (some "greet")
      [("a", "\x7b\x7bb\x7d\x7d"), ("b", "World")] "" = "Hi World" ∧
    textWithVars chainTable (some "greet")
      [("b", "World"), ("a", "\x7b\x7bb\x7d\x7d")] ""
      = "Hi \x7b\x7bb\x7d\x7d" := by
  constructor
  · decide
  · decide

/-- C6: the inline-marker scan is idempotent on an element: running it
twice yields the same element as running it once, because substitution
always re-derives from the original markup cached in
`data-original-content` on the first scan. -/
theorem translateInline_idempotent (tr : JValue) (el : DomElement) :
    translateInline tr (translateInline tr el) = translateInline tr el := by
  obtain ⟨h, a⟩ := el
  cases a with
  | none =>
    by_cases hm : hasMarkers h.data = true
    · have hh : ¬ (h = "") := by
        rintro rfl
        exact absurd hm (by decide)
      simp [translateInline, hm, hh]
    · by_cases hh : h = ""
      · subst hh
        simp [translateInline, hm]
      · simp [translateInline, hm, hh]
  | some s =>
    by_cases hs : s = ""
    · subst hs
      by_cases hm : hasMarkers h.data = true
      · have hh : ¬ (h = "") := by
          rintro rfl
          exact absurd hm (by decide)
        simp [translateInline, hm, hh]
      · by_cases hh : h = ""
        · subst hh
          simp [translateInline, hm]
        · simp [translateInline, hm, hh]
    · by_cases hm : hasMarkers s.data = true
      · simp [translateInline, hs, hm]
      · simp [translateInline, hs, hm]

/-- C1 counterexample: with every fetch failing and a non-default
current language, `loadTranslations` rejects — the error from the
default-table fetch escapes to the caller, contrary to the claim that no
error is raised.  (The table does remain empty and the current language
does become `'en'`.) -/
theorem loadTranslations_default_failure_throws :
    (loadTranslations failEnv esStart).throws = true ∧
    (loadTranslations failEnv esStart).state.translations = JValue.obj [] ∧
    (loadTranslations failEnv esStart).state.currentLanguage = "en" := by
  refine ⟨rfl, rfl, rfl⟩

/-- C1 amended: when fetching a non-default language's table fails, the
method retries with `'en'`, adopts it as current and installs the
default table; when the default fetch itself also fails the table is
left unchanged (still empty) and the current language is `'en'`, but the
error propagates to the caller (the returned promise rejects). -/
theorem loadTranslations_fallback (env : LoadEnv) (s : PageState)
    (hne : s.currentLanguage ≠ "en")
    (hfail : env.fetchTable s.currentLanguage = none) :
    (∀ t, env.fetchTable "en" = some t →
      (loadTranslations env s).throws = false ∧
      (loadTranslations env s).state.currentLanguage = "en" ∧
      (loadTranslations env s).state.translations = t) ∧
    (env.fetchTable "en" = none →
      (loadTranslations env s).throws = true ∧
      (loadTranslations env s).state.currentLanguage = "en" ∧
      (loadTranslations env s).state.translations = s.translations) := by
  constructor
  · intro t ht
    simp [loadTranslations, hfail, hne, ht]
  · intro ht
    simp [loadTranslations, hfail, hne, ht]

theorem loadTranslations_fallback_witness :
    (loadTranslations enOnlyEnv esStart).throws = false ∧
    (loadTranslations enOnlyEnv esStart).state.currentLanguage = "en" := by
  have h :=
    (loadTranslations_fallback enOnlyEnv esStart (by decide) rfl).1
      (JValue.obj [("k", JValue.str "v")]) rfl
  exact ⟨h.1, h.2.1⟩

/-- C4 counterexample: switching from `'en'` to `'es'` when
`languages/es.json` fails to load but `languages/en.json` loads: the
switch completes normally, yet the current language is `'en'`, not the
requested `'es'` (while the persisted preference and URL do say `'es'`). -/
theorem switchLanguage_fallback_counterexample :
    (switchLanguage enOnlyEnv enStart "es").throws = false ∧
    (switchLanguage enOnlyEnv enStart "es").state.currentLanguage ≠ "es" ∧
    (switchLanguage enOnlyEnv enStart "es").state.currentLanguage = "en" ∧
    (switchLanguage enOnlyEnv enStart "es").state.storedPref = some "es" := by
  refine ⟨rfl, by decide, rfl, rfl⟩

/-- C4 amended: for a code `c` different from the current language,
*provided the table for `c` loads successfully*, after `switchLanguage c`
the current language is `c`, the document language attribute is `c`, the
DOM has been rescanned once more, the persisted preference is `c` and
the URL's `lang` parameter is `c`. -/
theorem switchLanguage_success_spec (env : LoadEnv) (s : PageState)
    (c : String) (t : JValue)
    (hne : c ≠ s.currentLanguage) (hok : env.fetchTable c = some t) :
    switchLanguage env s c =
      ⟨{ currentLanguage := c, translations := t, docLang := c,
         storedPref := some c, urlLang := some c,
         domScans := s.domScans + 1,
         fetchLog := s.fetchLog ++ [c] }, false⟩ := by
  simp [switchLanguage, loadTranslations, hne, hok]

theorem switchLanguage_success_spec_witness :
    switchLanguage enOnlyEnv esStart "en"
      = ⟨⟨"en", JValue.obj [("k", JValue.str "v")], "en", some "en",
          some "en", 1, ["en"]⟩, false⟩ :=
  switchLanguage_success_spec enOnlyEnv esStart "en"
    (JValue.obj [("k", JValue.str "v")]) (by decide) rfl

/-- C5: switching to the current language is a no-op — the whole page
state (current language, table, document attribute, stored preference,
URL, DOM-scan count, fetch log) is returned untouched and nothing is
thrown: the guard `if (langCode === this.currentLanguage) return;` fires
before any effect. -/
theorem switchLanguage_noop (env : LoadEnv) (s : PageState) :
    switchLanguage env s s.currentLanguage = ⟨s, false⟩ := by
  simp [switchLanguage]

end Lang
